import Mathlib

/-!
Verification of the embedding pipeline in `src/lib.rs`
(`ClientSession::embedding`): attention-masked mean pooling followed by
L2 normalization, plus the orchestration around the tokenizer and the
ONNX inference engine.

Modelling choices:
* f32 values are modelled as exact rationals (`ℚ`) for the pooling
  arithmetic; the square root in the L2 norm is modelled over `ℝ`
  (`Real.sqrt`).
* IEEE division by a zero norm is modelled by the inductive `FVal`
  (finite / NaN / ±Inf), matching f32 semantics: `0.0 / 0.0 = NaN`,
  `x / 0.0 = ±Inf` for `x ≠ 0`.
* The hidden-state tensor of shape `(1, seq_len, hidden_dim)` is a list
  of `seq_len` row functions `ℕ → ℚ` (dimension index ↦ value) together
  with the explicit `hidden_dim` (the source reads it from
  `token_embeddings.shape()[2]`).
* A Rust panic (out-of-bounds `outputs[0]`, or an `ndarray` shape
  mismatch in the broadcast multiply) is modelled as `Option.none`;
  a normal return is `Option.some`.
-/

namespace PGE

/-- The clamp constant from `mapv(|x| x.max(1e-9))` in the source. -/
def clampMin : ℚ := 1 / 1000000000

/-- `let token_masked_sum = (&token_embeddings * &input_mask_expanded).sum_axis(Axis(1));`
The broadcast mask repeats each mask value across the hidden dimension, so
component `d` of the result is the sum over sequence positions `i` of
`hidden[i][d] * mask[i]`.  `hidden` is the list of per-token rows, `mask`
the i64 attention mask, `H` the hidden dimension `shape()[2]`. -/
def token_masked_sum (hidden : List (ℕ → ℚ)) (mask : List ℤ) (H : ℕ) : List ℚ :=
  (List.range H).map (fun d => ((hidden.zip mask).map (fun p => p.1 d * (p.2 : ℚ))).sum)

/-- `let mask_sum = input_mask_expanded.sum_axis(Axis(1)).mapv(|x| x.max(1e-9));`
Summing the broadcast mask over the sequence axis gives, in every hidden
dimension, the same value: the sum of the mask entries; each entry is then
clamped from below by `1e-9`. -/
def mask_sum (mask : List ℤ) (H : ℕ) : List ℚ :=
  (List.range H).map (fun _ => max ((mask.map (fun (m : ℤ) => (m : ℚ))).sum) clampMin)

/-- `let mean_pooling = token_masked_sum / mask_sum;` — component-wise division
of two `(1, hidden_dim)` arrays. -/
def mean_pooling (hidden : List (ℕ → ℚ)) (mask : List ℤ) (H : ℕ) : List ℚ :=
  List.zipWith (· / ·) (token_masked_sum hidden mask H) (mask_sum mask H)

/-- Sum of squares of the pooled vector: `mean_pooling.mapv(|x| x.powi(2)).sum()`. -/
def l2_norm_sq (v : List ℚ) : ℚ := (v.map (fun x => x ^ 2)).sum

/-- `let l2_norm = mean_pooling.mapv(|x| x.powi(2)).sum().sqrt();` -/
noncomputable def l2_norm (v : List ℚ) : ℝ := Real.sqrt (l2_norm_sq v)

/-- An f32 result value: a finite real, NaN, or a signed infinity. -/
inductive FVal where
  | finite (x : ℝ)
  | nan
  | posInf
  | negInf

/-- IEEE f32 division of a finite value `x` by the L2 norm of `v`.
The norm is `Real.sqrt (l2_norm_sq v)` with `l2_norm_sq v` a sum of squares,
hence nonnegative: the norm is zero exactly when `l2_norm_sq v = 0`.
Division by a zero norm yields NaN for `x = 0` and ±Inf otherwise,
as in IEEE 754; otherwise the quotient is finite. -/
noncomputable def div_by_norm (x : ℚ) (v : List ℚ) : FVal :=
  if l2_norm_sq v = 0 then
    (if x = 0 then FVal.nan else if 0 < x then FVal.posInf else FVal.negInf)
  else FVal.finite ((x : ℝ) / l2_norm v)

/-- `let sentence_embeddings = mean_pooling / l2_norm;` followed by the
flattening loop `for i in sentence_embeddings.iter() { vec.push(*i) }`. -/
noncomputable def sentence_embeddings (hidden : List (ℕ → ℚ)) (mask : List ℤ) (H : ℕ) :
    List FVal :=
  (mean_pooling hidden mask H).map (fun x => div_by_norm x (mean_pooling hidden mask H))

/-- The spec formula for the divisor: the scalar mask count (sum of the
unbroadcast mask values over the sequence axis), clamped to a minimum of
`1e-9`. -/
def mask_count_spec (mask : List ℤ) : ℚ :=
  max ((mask.map (fun (m : ℤ) => (m : ℚ))).sum) clampMin

/-- The spec formula for mean pooling: every component of the masked sum is
divided by the single scalar clamped mask count. -/
def mean_pooling_spec (hidden : List (ℕ → ℚ)) (mask : List ℤ) (H : ℕ) : List ℚ :=
  (token_masked_sum hidden mask H).map (fun s => s / mask_count_spec mask)

/-- The arithmetic mean, in dimension `d`, of the hidden rows at exactly the
positions whose mask value is 1 (formula taken from the words of the claim). -/
def masked_mean (hidden : List (ℕ → ℚ)) (mask : List ℤ) (d : ℕ) : ℚ :=
  (((hidden.zip mask).filter (fun p => p.2 = 1)).map (fun p => p.1 d)).sum /
    (((hidden.zip mask).filter (fun p => p.2 = 1)).length : ℚ)

end PGE

namespace PGE

/-- C3: every entry of the mask-count divisor is clamped to at least `1e-9`,
hence is nonzero: the mean-pooling division never divides by zero. -/
theorem mask_sum_clamped (mask : List ℤ) (H : ℕ) (q : ℚ) (hq : q ∈ mask_sum mask H) :
    clampMin ≤ q ∧ q ≠ 0 := by
  obtain ⟨d, -, rfl⟩ := List.mem_map.mp hq
  refine ⟨le_max_right _ _, ?_⟩
  have h0 : (0 : ℚ) < clampMin := by norm_num [clampMin]
  exact ne_of_gt (lt_of_lt_of_le h0 (le_max_right _ _))

/-- C3 witness: concrete evaluation on the all-padding mask `[0, 0]`. -/
theorem mask_sum_clamped_witness :
    ((1 : ℚ) / 1000000000) ∈ mask_sum [0, 0] 1 ∧
      clampMin ≤ ((1 : ℚ) / 1000000000) ∧ ((1 : ℚ) / 1000000000) ≠ 0 := by
  have hm : ((1 : ℚ) / 1000000000) ∈ mask_sum [0, 0] 1 := by
    simp [mask_sum, clampMin, List.range_succ]
  exact ⟨hm, mask_sum_clamped [0, 0] 1 _ hm⟩

theorem token_masked_sum_length (hidden : List (ℕ → ℚ)) (mask : List ℤ) (H : ℕ) :
    (token_masked_sum hidden mask H).length = H := by
  simp [token_masked_sum]

theorem mask_sum_eq_replicate (mask : List ℤ) (H : ℕ) :
    mask_sum mask H = List.replicate H (mask_count_spec mask) := by
  simp [mask_sum, mask_count_spec, List.map_const]

theorem zipWith_replicate_right {α β γ : Type} (f : α → β → γ) (c : β) :
    ∀ (l : List α) (n : ℕ), l.length = n →
      List.zipWith f l (List.replicate n c) = l.map (fun x => f x c)
  | [], n, _ => by simp
  | a :: t, n, h => by
    cases n with
    | zero => simp at h
    | succ m =>
      simp [List.replicate_succ, zipWith_replicate_right f c t m (by simpa using h)]

/-- C7: the code divisor, obtained by summing the mask broadcast to
`(1, seq_len, hidden_dim)` over the sequence axis and clamping, has every
component equal to the scalar clamped mask count of the spec, so the code
mean pooling equals the spec formula. -/
theorem mean_pooling_refines_spec (hidden : List (ℕ → ℚ)) (mask : List ℤ) (H : ℕ) :
    mask_sum mask H = List.replicate H (mask_count_spec mask) ∧
      mean_pooling hidden mask H = mean_pooling_spec hidden mask H := by
  refine ⟨mask_sum_eq_replicate mask H, ?_⟩
  rw [mean_pooling, mask_sum_eq_replicate,
    zipWith_replicate_right _ _ _ H (token_masked_sum_length hidden mask H)]
  rfl

theorem sum_map_mul_mask (d : ℕ) :
    ∀ l : List ((ℕ → ℚ) × ℤ), (∀ p ∈ l, p.2 = 0 ∨ p.2 = 1) →
      (l.map (fun p => p.1 d * (p.2 : ℚ))).sum =
        ((l.filter (fun p => p.2 = 1)).map (fun p => p.1 d)).sum
  | [], _ => by simp
  | p :: t, h => by
    have ht := sum_map_mul_mask d t (fun q hq => h q (List.mem_cons_of_mem _ hq))
    rcases h p (List.mem_cons_self p t) with h0 | h1
    · simp [List.filter_cons, h0, ht]
    · simp [List.filter_cons, h1, ht]

theorem sum_map_mask_count :
    ∀ l : List ((ℕ → ℚ) × ℤ), (∀ p ∈ l, p.2 = 0 ∨ p.2 = 1) →
      (l.map (fun p => ((p.2 : ℤ) : ℚ))).sum = ((l.filter (fun p => p.2 = 1)).length : ℚ)
  | [], _ => by simp
  | p :: t, h => by
    have ht := sum_map_mask_count t (fun q hq => h q (List.mem_cons_of_mem _ hq))
    rcases h p (List.mem_cons_self p t) with h0 | h1
    · simp [List.filter_cons, h0, ht]
    · simp [List.filter_cons, h1, ht]
      ring

theorem mean_pooling_getD (hidden : List (ℕ → ℚ)) (mask : List ℤ) (H d : ℕ) (hd : d < H) :
    (mean_pooling hidden mask H).getD d 0 =
      ((hidden.zip mask).map (fun p => p.1 d * (p.2 : ℚ))).sum /
        max ((mask.map (fun (m : ℤ) => (m : ℚ))).sum) clampMin := by
  have hlen : d < (mean_pooling hidden mask H).length := by
    simp [mean_pooling, List.length_zipWith, token_masked_sum, mask_sum, hd]
  rw [List.getD_eq_getElem _ _ hlen]
  simp [mean_pooling, token_masked_sum, mask_sum, List.getElem_zipWith, hd]

/-- C1: with a 0/1 mask containing at least one 1 and a hidden-state tensor with
one row per mask entry, every component of the pooled vector equals the
arithmetic mean of the hidden rows at exactly the positions whose mask is 1;
positions with mask 0 contribute nothing. -/
theorem mean_pooling_eq_masked_mean (hidden : List (ℕ → ℚ)) (mask : List ℤ) (H : ℕ)
    (hlen : hidden.length = mask.length)
    (h01 : ∀ m ∈ mask, m = 0 ∨ m = 1) (hone : (1 : ℤ) ∈ mask)
    (d : ℕ) (hd : d < H) :
    (mean_pooling hidden mask H).getD d 0 = masked_mean hidden mask d := by
  have h01' : ∀ p ∈ hidden.zip mask, p.2 = (0 : ℤ) ∨ p.2 = 1 := by
    intro p hp
    rcases p with ⟨r, m⟩
    exact h01 m (List.of_mem_zip hp).2
  have hsnd : (hidden.zip mask).map Prod.snd = mask :=
    List.map_snd_zip hidden mask (le_of_eq hlen.symm)
  have hmap2 : mask.map (fun (m : ℤ) => (m : ℚ)) =
      (hidden.zip mask).map (fun p => ((p.2 : ℤ) : ℚ)) := by
    conv_lhs => rw [← hsnd, List.map_map]
    rfl
  have hmask_sum : (mask.map (fun (m : ℤ) => (m : ℚ))).sum =
      (((hidden.zip mask).filter (fun p => p.2 = 1)).length : ℚ) := by
    rw [hmap2]
    exact sum_map_mask_count _ h01'
  have hone' : ∃ p ∈ hidden.zip mask, p.2 = (1 : ℤ) := by
    rw [← hsnd] at hone
    obtain ⟨p, hp, hpe⟩ := List.mem_map.mp hone
    exact ⟨p, hp, hpe⟩
  have hcount : 1 ≤ ((hidden.zip mask).filter (fun p => p.2 = 1)).length := by
    obtain ⟨p, hp, hpe⟩ := hone'
    have : p ∈ (hidden.zip mask).filter (fun p => p.2 = 1) :=
      List.mem_filter.mpr ⟨hp, by simp [hpe]⟩
    exact List.length_pos.mpr (List.ne_nil_of_mem this)
  have hclamp : max ((mask.map (fun (m : ℤ) => (m : ℚ))).sum) clampMin =
      (((hidden.zip mask).filter (fun p => p.2 = 1)).length : ℚ) := by
    rw [hmask_sum]
    refine max_eq_left ?_
    calc clampMin ≤ 1 := by norm_num [clampMin]
    _ ≤ _ := by exact_mod_cast hcount
  rw [mean_pooling_getD hidden mask H d hd, hclamp, sum_map_mul_mask d _ h01', masked_mean]

/-- C1 witness: mask `[1, 0]` with hidden rows `10` and `99`: the pooled value
is the mean of the unmasked row alone. -/
theorem mean_pooling_eq_masked_mean_witness :
    (mean_pooling [fun _ => (10 : ℚ), fun _ => 99] [1, 0] 1).getD 0 0 =
      masked_mean [fun _ => (10 : ℚ), fun _ => 99] [1, 0] 0 :=
  mean_pooling_eq_masked_mean [fun _ => (10 : ℚ), fun _ => 99] [1, 0] 1 rfl
    (by decide) (by decide) 0 (by decide)

theorem l2_norm_sq_cons (a : ℚ) (t : List ℚ) :
    l2_norm_sq (a :: t) = a ^ 2 + l2_norm_sq t := by
  simp [l2_norm_sq]

theorem l2_norm_sq_nonneg (v : List ℚ) : 0 ≤ l2_norm_sq v := by
  refine List.sum_nonneg ?_
  intro x hx
  obtain ⟨y, -, rfl⟩ := List.mem_map.mp hx
  positivity

theorem l2_norm_sq_pos : ∀ (v : List ℚ) (x : ℚ), x ∈ v → x ≠ 0 → 0 < l2_norm_sq v
  | [], x, hx, _ => absurd hx (List.not_mem_nil x)
  | a :: t, x, hx, hne => by
    rcases List.mem_cons.mp hx with rfl | hmem
    · have h1 : 0 < x ^ 2 := by positivity
      have h2 : 0 ≤ l2_norm_sq t := l2_norm_sq_nonneg t
      rw [l2_norm_sq_cons]
      linarith
    · have h1 : 0 ≤ a ^ 2 := by positivity
      have h2 : 0 < l2_norm_sq t := l2_norm_sq_pos t x hmem hne
      rw [l2_norm_sq_cons]
      linarith

theorem sum_map_sq_cast : ∀ v : List ℚ,
    (v.map (fun (x : ℚ) => ((x : ℝ)) ^ 2)).sum = ((l2_norm_sq v : ℚ) : ℝ)
  | [] => by simp [l2_norm_sq]
  | a :: t => by
    rw [List.map_cons, List.sum_cons, sum_map_sq_cast t, l2_norm_sq_cons]
    push_cast
    ring

theorem sum_map_div_real {α : Type} (f : α → ℝ) (c : ℝ) :
    ∀ l : List α, (l.map (fun x => f x / c)).sum = (l.map f).sum / c
  | [] => by simp
  | a :: t => by simp [sum_map_div_real f c t, add_div]

theorem sum_map_div_sq (v : List ℚ) (c : ℝ) :
    (v.map (fun (x : ℚ) => ((x : ℝ) / c) ^ 2)).sum =
      (v.map (fun (x : ℚ) => ((x : ℝ)) ^ 2)).sum / c ^ 2 := by
  have hfun : (fun (x : ℚ) => ((x : ℝ) / c) ^ 2) =
      fun (x : ℚ) => ((x : ℝ)) ^ 2 / c ^ 2 := by
    funext x
    rw [div_pow]
  rw [hfun]
  exact sum_map_div_real (fun (x : ℚ) => ((x : ℝ)) ^ 2) (c ^ 2) v

/-- C2: when the pooled vector is non-zero, the vector returned by the pipeline
consists of finite values whose Euclidean norm is exactly 1. -/
theorem sentence_embeddings_unit_norm (hidden : List (ℕ → ℚ)) (mask : List ℤ) (H : ℕ)
    (hne : ∃ x ∈ mean_pooling hidden mask H, x ≠ 0) :
    ∃ w : List ℝ,
      sentence_embeddings hidden mask H = w.map FVal.finite ∧
        Real.sqrt ((w.map (fun y => y ^ 2)).sum) = 1 := by
  obtain ⟨x, hx, hxne⟩ := hne
  have hS : 0 < l2_norm_sq (mean_pooling hidden mask H) :=
    l2_norm_sq_pos _ x hx hxne
  have hSne : l2_norm_sq (mean_pooling hidden mask H) ≠ 0 := ne_of_gt hS
  refine ⟨(mean_pooling hidden mask H).map
    (fun (x : ℚ) => (x : ℝ) / l2_norm (mean_pooling hidden mask H)), ?_, ?_⟩
  · rw [sentence_embeddings, List.map_map]
    refine List.map_congr_left ?_
    intro y _
    simp [div_by_norm, hSne, Function.comp]
  · rw [List.map_map]
    have hcomp : ((fun y : ℝ => y ^ 2) ∘
        (fun x : ℚ => (x : ℝ) / l2_norm (mean_pooling hidden mask H))) =
        (fun x : ℚ => ((x : ℝ) / l2_norm (mean_pooling hidden mask H)) ^ 2) := rfl
    rw [hcomp, sum_map_div_sq, sum_map_sq_cast]
    have hsq : (l2_norm (mean_pooling hidden mask H)) ^ 2 =
        ((l2_norm_sq (mean_pooling hidden mask H) : ℚ) : ℝ) :=
      Real.sq_sqrt (by exact_mod_cast le_of_lt hS)
    rw [hsq, div_self (by exact_mod_cast hSne), Real.sqrt_one]

/-- C2 witness: one real token whose hidden row is the constant 3. -/
theorem sentence_embeddings_unit_norm_witness :
    ∃ w : List ℝ,
      sentence_embeddings [fun _ => (3 : ℚ)] [1] 1 = w.map FVal.finite ∧
        Real.sqrt ((w.map (fun y => y ^ 2)).sum) = 1 := by
  refine sentence_embeddings_unit_norm _ _ _ ⟨3, ?_, by norm_num⟩
  have h : mean_pooling [fun _ => (3 : ℚ)] [1] 1 = [3 / max 1 clampMin] := by
    simp [mean_pooling, token_masked_sum, mask_sum, List.range_succ]
  rw [h, max_eq_left (by norm_num [clampMin])]
  norm_num

theorem mean_pooling_length (hidden : List (ℕ → ℚ)) (mask : List ℤ) (H : ℕ) :
    (mean_pooling hidden mask H).length = H := by
  simp [mean_pooling, List.length_zipWith, token_masked_sum, mask_sum]

/-- C6: if the pooled vector is the zero vector, the computed L2 norm is 0 and
every component of the returned vector is NaN: the division by the zero norm is
not special-cased (neither a substituted zero vector nor an error). -/
theorem sentence_embeddings_zero_pooled (hidden : List (ℕ → ℚ)) (mask : List ℤ) (H : ℕ)
    (hz : ∀ x ∈ mean_pooling hidden mask H, x = 0) :
    l2_norm (mean_pooling hidden mask H) = 0 ∧
      sentence_embeddings hidden mask H = List.replicate H FVal.nan := by
  have hS : l2_norm_sq (mean_pooling hidden mask H) = 0 := by
    refine List.sum_eq_zero ?_
    intro y hy
    obtain ⟨x, hx, rfl⟩ := List.mem_map.mp hy
    rw [hz x hx]
    ring
  constructor
  · rw [l2_norm, hS]
    simp
  · rw [List.eq_replicate_iff]
    refine ⟨by simp [sentence_embeddings, mean_pooling_length], ?_⟩
    intro b hb
    obtain ⟨x, hx, rfl⟩ := List.mem_map.mp hb
    simp [div_by_norm, hS, hz x hx]

/-- C6 witness: one real token whose hidden row is identically 0. -/
theorem sentence_embeddings_zero_pooled_witness :
    l2_norm (mean_pooling [fun _ => (0 : ℚ)] [1] 1) = 0 ∧
      sentence_embeddings [fun _ => (0 : ℚ)] [1] 1 = List.replicate 1 FVal.nan := by
  refine sentence_embeddings_zero_pooled _ _ _ ?_
  intro x hx
  have h : mean_pooling [fun _ => (0 : ℚ)] [1] 1 = [0] := by
    simp [mean_pooling, token_masked_sum, mask_sum, List.range_succ]
  rw [h] at hx
  simpa using hx

/-- The tokenizer output: `get_ids()`, `get_attention_mask()` and
`get_type_ids()`, all sequences of u32 values (modelled as `ℕ`, with the
u32 range bound stated as a hypothesis where it matters). -/
structure Encoding where
  ids : List ℕ
  attention_mask : List ℕ
  type_ids : List ℕ

/-- One output tensor of the inference engine, of shape
`(1, seq_len, hidden_dim)`: a list of `seq_len` per-token rows plus the
hidden dimension `shape()[2]`. -/
structure Tensor where
  hidden : List (ℕ → ℚ)
  hiddenDim : ℕ

/-- The Rust cast `x as i64` applied to a u32 value held in a `ℕ`:
reduce modulo 2^64 and reinterpret in the signed 64-bit range.
For `n < 2^32` this is the exact value `(n : ℤ)`. -/
def u32_to_i64 (n : ℕ) : ℤ :=
  if n % 2 ^ 64 < 2 ^ 63 then ((n % 2 ^ 64 : ℕ) : ℤ)
  else ((n % 2 ^ 64 : ℕ) : ℤ) - 2 ^ 64

/-- `ClientSession::embedding`, with the two collaborators as explicit
function parameters: `tokenize` is `self.tokenizer.encode(input, true)` and
`run` is `self.session.run(...)` on the three i64 input tensors.
`none` models a panic: the out-of-bounds `outputs[0]` on an empty output
list, and the `ndarray` shape-mismatch panic when the first output tensor's
sequence length differs from the attention-mask length. -/
noncomputable def embedding {ε : Type} (tokenize : String → Except ε Encoding)
    (run : List ℤ → List ℤ → List ℤ → Except ε (List Tensor))
    (input : String) : Option (Except ε (List FVal)) :=
  match tokenize input with
  | Except.error e => some (Except.error e)
  | Except.ok encoding =>
    let input_ids := encoding.ids.map u32_to_i64
    let attention_mask := encoding.attention_mask.map u32_to_i64
    let token_type_ids := encoding.type_ids.map u32_to_i64
    match run input_ids attention_mask token_type_ids with
    | Except.error e => some (Except.error e)
    | Except.ok outputs =>
      match outputs with
      | [] => none
      | t :: _ =>
        if t.hidden.length = attention_mask.length then
          some (Except.ok (sentence_embeddings t.hidden attention_mask t.hiddenDim))
        else none

theorem sentence_embeddings_length (hidden : List (ℕ → ℚ)) (mask : List ℤ) (H : ℕ) :
    (sentence_embeddings hidden mask H).length = H := by
  simp [sentence_embeddings, mean_pooling_length]

/-- C4: `embedding` returns an error exactly when the tokenizer or the engine
fails, and propagates that error unchanged; on a successful single attempt
(at least one output tensor, of matching sequence length) the vector is
returned directly, with no retry or fallback. -/
theorem embedding_error_propagation {ε : Type} (tokenize : String → Except ε Encoding)
    (run : List ℤ → List ℤ → List ℤ → Except ε (List Tensor)) (input : String) :
    (∀ e : ε, embedding tokenize run input = some (Except.error e) ↔
      (tokenize input = Except.error e ∨
        ∃ enc, tokenize input = Except.ok enc ∧
          run (enc.ids.map u32_to_i64) (enc.attention_mask.map u32_to_i64)
            (enc.type_ids.map u32_to_i64) = Except.error e)) ∧
    (∀ enc t rest, tokenize input = Except.ok enc →
      run (enc.ids.map u32_to_i64) (enc.attention_mask.map u32_to_i64)
        (enc.type_ids.map u32_to_i64) = Except.ok (t :: rest) →
      t.hidden.length = enc.attention_mask.length →
      embedding tokenize run input = some (Except.ok
        (sentence_embeddings t.hidden (enc.attention_mask.map u32_to_i64)
          t.hiddenDim))) := by
  constructor
  · intro e
    cases htok : tokenize input with
    | error e0 =>
      simp [embedding, htok, eq_comm]
    | ok enc =>
      cases hrun : run (enc.ids.map u32_to_i64) (enc.attention_mask.map u32_to_i64)
          (enc.type_ids.map u32_to_i64) with
      | error e0 =>
        simp [embedding, htok, hrun, eq_comm]
      | ok outs =>
        cases outs with
        | nil => simp [embedding, htok, hrun]
        | cons t rest =>
          by_cases hsh : t.hidden.length = (enc.attention_mask.map u32_to_i64).length <;>
            simp [embedding, htok, hrun, hsh]
  · intro enc t rest htok hrun hsh
    have hsh' : t.hidden.length = (enc.attention_mask.map u32_to_i64).length := by
      simpa using hsh
    simp [embedding, htok, hrun, hsh']

/-- C4 witness: a concrete tokenizer and engine; the single attempt returns the
pooled-and-normalized vector directly. -/
theorem embedding_error_propagation_witness :
    embedding (ε := Unit) (fun _ => Except.ok ⟨[5], [1], [0]⟩)
      (fun _ _ _ => Except.ok [⟨[fun _ => 2], 3⟩]) "hello" =
      some (Except.ok (sentence_embeddings [fun _ => 2] ([1].map u32_to_i64) 3)) :=
  (embedding_error_propagation (ε := Unit) (fun _ => Except.ok ⟨[5], [1], [0]⟩)
    (fun _ _ _ => Except.ok [⟨[fun _ => 2], 3⟩]) "hello").2
    ⟨[5], [1], [0]⟩ ⟨[fun _ => 2], 3⟩ [] rfl rfl rfl

/-- C5: every successful call returns a vector whose length equals the hidden
dimension — the third dimension of the first output tensor of the engine —
whatever the input text and token count. -/
theorem embedding_output_length {ε : Type} (tokenize : String → Except ε Encoding)
    (run : List ℤ → List ℤ → List ℤ → Except ε (List Tensor)) (input : String)
    (v : List FVal) (h : embedding tokenize run input = some (Except.ok v)) :
    ∃ enc t rest,
      tokenize input = Except.ok enc ∧
        run (enc.ids.map u32_to_i64) (enc.attention_mask.map u32_to_i64)
          (enc.type_ids.map u32_to_i64) = Except.ok (t :: rest) ∧
        v.length = t.hiddenDim := by
  cases htok : tokenize input with
  | error e0 => simp [embedding, htok] at h
  | ok enc =>
    cases hrun : run (enc.ids.map u32_to_i64) (enc.attention_mask.map u32_to_i64)
        (enc.type_ids.map u32_to_i64) with
    | error e0 => simp [embedding, htok, hrun] at h
    | ok outs =>
      cases outs with
      | nil => simp [embedding, htok, hrun] at h
      | cons t rest =>
        by_cases hsh : t.hidden.length = enc.attention_mask.length
        · refine ⟨enc, t, rest, rfl, hrun, ?_⟩
          simp [embedding, htok, hrun, List.length_map, hsh] at h
          rw [← h, sentence_embeddings_length]
        · simp [embedding, htok, hrun, List.length_map, hsh] at h

/-- C5 witness: a successful concrete call whose result length equals the
hidden dimension 3 of the engine's first output tensor. -/
theorem embedding_output_length_witness :
    ∃ enc t rest,
      (fun (_ : String) => Except.ok (ε := Unit) (⟨[5], [1], [0]⟩ : Encoding)) "hi" =
          Except.ok enc ∧
        (fun (_ _ _ : List ℤ) => Except.ok (ε := Unit) [(⟨[fun _ => 2], 3⟩ : Tensor)])
            (enc.ids.map u32_to_i64) (enc.attention_mask.map u32_to_i64)
            (enc.type_ids.map u32_to_i64) = Except.ok (t :: rest) ∧
        (sentence_embeddings [fun _ => 2] ([1].map u32_to_i64) 3).length = t.hiddenDim :=
  embedding_output_length (ε := Unit) (fun _ => Except.ok ⟨[5], [1], [0]⟩)
    (fun _ _ _ => Except.ok [⟨[fun _ => 2], 3⟩]) "hi"
    (sentence_embeddings [fun _ => 2] ([1].map u32_to_i64) 3) rfl

/-- C8: `embedding` is deterministic: with the tokenizer and engine fixed, two
calls with identical input text return identical results. -/
theorem embedding_deterministic {ε : Type} (tokenize : String → Except ε Encoding)
    (run : List ℤ → List ℤ → List ℤ → Except ε (List Tensor))
    (s t : String) (h : s = t) :
    embedding tokenize run s = embedding tokenize run t := by
  rw [h]

/-- C8 witness: two calls with the same text on the same concrete session. -/
theorem embedding_deterministic_witness :
    embedding (ε := Unit) (fun _ => Except.ok ⟨[5], [1], [0]⟩)
        (fun _ _ _ => Except.ok [⟨[fun _ => 2], 3⟩]) "same text" =
      embedding (ε := Unit) (fun _ => Except.ok ⟨[5], [1], [0]⟩)
        (fun _ _ _ => Except.ok [⟨[fun _ => 2], 3⟩]) "same text" :=
  embedding_deterministic (ε := Unit) (fun _ => Except.ok ⟨[5], [1], [0]⟩)
    (fun _ _ _ => Except.ok [⟨[fun _ => 2], 3⟩]) "same text" "same text" rfl

/-- C9: if inference succeeds but returns no output tensors, the source indexes
`outputs[0]` out of bounds and panics (modelled as `none`) instead of returning
an error or a vector. -/
theorem embedding_empty_outputs_panics {ε : Type} (tokenize : String → Except ε Encoding)
    (run : List ℤ → List ℤ → List ℤ → Except ε (List Tensor)) (input : String)
    (enc : Encoding) (htok : tokenize input = Except.ok enc)
    (hrun : run (enc.ids.map u32_to_i64) (enc.attention_mask.map u32_to_i64)
      (enc.type_ids.map u32_to_i64) = Except.ok []) :
    embedding tokenize run input = none := by
  simp [embedding, htok, hrun]

/-- C9 witness: a concrete engine returning an empty output list. -/
theorem embedding_empty_outputs_panics_witness :
    embedding (ε := Unit) (fun _ => Except.ok ⟨[5], [1], [0]⟩)
      (fun _ _ _ => Except.ok []) "hello" = none :=
  embedding_empty_outputs_panics (ε := Unit) (fun _ => Except.ok ⟨[5], [1], [0]⟩)
    (fun _ _ _ => Except.ok []) "hello" ⟨[5], [1], [0]⟩ rfl rfl

theorem u32_to_i64_eq_of_lt (n : ℕ) (h : n < 2 ^ 32) : u32_to_i64 n = (n : ℤ) := by
  have h64 : n < 2 ^ 64 := lt_trans h (by norm_num)
  have hmod : n % 2 ^ 64 = n := Nat.mod_eq_of_lt h64
  have h63 : n % 2 ^ 64 < 2 ^ 63 := by
    rw [hmod]
    exact lt_trans h (by norm_num)
  unfold u32_to_i64
  rw [if_pos h63, hmod]

theorem map_u32_to_i64_exact (xs : List ℕ) (h : ∀ x ∈ xs, x < 2 ^ 32) :
    xs.map u32_to_i64 = xs.map (fun (n : ℕ) => (n : ℤ)) :=
  List.map_congr_left (fun x hx => u32_to_i64_eq_of_lt x (h x hx))

/-- C10: for u32 token ids, mask values and type ids, the `as i64` conversion
is exact: the three i64 sequences passed to the engine are value-for-value the
integer values of the tokenizer's outputs and have the same lengths. -/
theorem encoding_cast_exact (enc : Encoding)
    (hids : ∀ x ∈ enc.ids, x < 2 ^ 32)
    (hmask : ∀ x ∈ enc.attention_mask, x < 2 ^ 32)
    (htype : ∀ x ∈ enc.type_ids, x < 2 ^ 32) :
    enc.ids.map u32_to_i64 = enc.ids.map (fun (n : ℕ) => (n : ℤ)) ∧
      enc.attention_mask.map u32_to_i64 =
        enc.attention_mask.map (fun (n : ℕ) => (n : ℤ)) ∧
      enc.type_ids.map u32_to_i64 = enc.type_ids.map (fun (n : ℕ) => (n : ℤ)) ∧
      (enc.ids.map u32_to_i64).length = enc.ids.length ∧
      (enc.attention_mask.map u32_to_i64).length = enc.attention_mask.length ∧
      (enc.type_ids.map u32_to_i64).length = enc.type_ids.length :=
  ⟨map_u32_to_i64_exact _ hids, map_u32_to_i64_exact _ hmask,
    map_u32_to_i64_exact _ htype, List.length_map _ _, List.length_map _ _,
    List.length_map _ _⟩

/-- C10 witness: the extreme u32 value 4294967295 converts exactly. -/
theorem encoding_cast_exact_witness :
    ([0, 4294967295].map u32_to_i64 = [0, 4294967295].map (fun n : ℕ => (n : ℤ)) ∧
      [1, 0].map u32_to_i64 = [1, 0].map (fun n : ℕ => (n : ℤ)) ∧
      [0, 0].map u32_to_i64 = [0, 0].map (fun n : ℕ => (n : ℤ)) ∧
      ([0, 4294967295].map u32_to_i64).length = [0, 4294967295].length ∧
      ([1, 0].map u32_to_i64).length = ([1, 0] : List ℕ).length ∧
      ([0, 0].map u32_to_i64).length = ([0, 0] : List ℕ).length) :=
  encoding_cast_exact ⟨[0, 4294967295], [1, 0], [0, 0]⟩
    (by decide) (by decide) (by decide)

end PGE
